import Mathlib

/-!
Shallow embedding of `src/source/utils/parser.ts` (repository Abiji-2020/cortex).

The embedding works on `List Char` for file contents and on `List (List Char)`
for the line-split form, mirroring the TypeScript string operations
(`split('\n')`, `substring`, `slice`, `trim`, `includes`, regex matching with
the `g`/`gm` flags) step by step.  File-system access in `parseDirectory` is
modelled by passing the enumerated files as a list of (path, read result)
pairs; everything else is translated directly from the source.
-/

namespace Cortex

/-- The single-quote character (code 39). -/
def squote : Char := Char.ofNat 39

/-- The double-quote character (code 34). -/
def dquote : Char := Char.ofNat 34

/-- The backtick character (code 96). -/
def btick : Char := Char.ofNat 96

/-- The opening curly brace character (code 123). -/
def obrace : Char := Char.ofNat 123

/-- The closing curly brace character (code 125). -/
def cbrace : Char := Char.ofNat 125

/-- JavaScript `\s` (whitespace) on the ASCII range: space, tab, newline,
carriage return, vertical tab, form feed.  (`[\s\n]` is the same set, since
`\n` is already in `\s`.) -/
def isWs (c : Char) : Bool :=
  c = ' ' || c = '\t' || c = '\n' || c = '\r' || c = Char.ofNat 11 || c = Char.ofNat 12

/-- Regex class `[a-zA-Z0-9_]`, the identifier characters of both regexes. -/
def isWordChar (c : Char) : Bool :=
  (('a' ≤ c && c ≤ 'z') || ('A' ≤ c && c ≤ 'Z') || ('0' ≤ c && c ≤ '9') || c = '_')

/-- Regex class `[a-zA-Z_]`, the leading character of a Python identifier. -/
def isPyStartChar (c : Char) : Bool :=
  (('a' ≤ c && c ≤ 'z') || ('A' ≤ c && c ≤ 'Z') || c = '_')

/-- JavaScript `String.prototype.split('\n')`: splits on every newline; the
result always has one more element than the number of newlines. -/
def splitNL : List Char → List (List Char)
  | [] => [[]]
  | c :: rest =>
    if c = '\n' then [] :: splitNL rest
    else
      match splitNL rest with
      | l :: ls => (c :: l) :: ls
      | [] => [[c]]

/-- JavaScript `Array.prototype.join('\n')`: the inverse direction of `splitNL`. -/
def joinNL : List (List Char) → List Char
  | [] => []
  | [l] => l
  | l :: rest => l ++ '\n' :: joinNL rest

/-- The value `str.split('\n').length`, the 1-based line count of a prefix. -/
def lineCount (s : List Char) : Nat := (splitNL s).length

/-- JavaScript `String.prototype.trimStart()` (whitespace from the front). -/
def trimStartWs (s : List Char) : List Char := s.dropWhile isWs

/-- JavaScript `String.prototype.trim()` (whitespace from both ends). -/
def trimWs (s : List Char) : List Char :=
  ((s.dropWhile isWs).reverse.dropWhile isWs).reverse

/-- Does `s` start with `pat`?  (`String.prototype.startsWith`.) -/
def startsWithL : List Char → List Char → Bool
  | [], _ => true
  | _ :: _, [] => false
  | a :: as, b :: bs => a = b && startsWithL (as) (bs)

/-- Does `s` contain `pat` as a contiguous substring?
(`String.prototype.includes`.) -/
def containsSub (pat : List Char) : List Char → Bool
  | [] => pat.isEmpty
  | c :: rest => startsWithL pat (c :: rest) || containsSub pat rest

/-- Strip the literal `pat` from the front of `s`, returning the remainder
(regex literal token). -/
def dropLit : List Char → List Char → Option (List Char)
  | [], s => some s
  | _ :: _, [] => none
  | a :: as, b :: bs => if a = b then dropLit as bs else none

/-- Regex `\s+`, maximal munch: returns the consumed run (nonempty) and the
rest.  In both source patterns every token following a `\s+` starts with a
non-whitespace character, so maximal munch coincides with backtracking. -/
def takeWs1 (s : List Char) : Option (List Char × List Char) :=
  match s with
  | [] => none
  | c :: rest =>
    if isWs c then some (c :: rest.takeWhile isWs, rest.dropWhile isWs) else none

/-- Greedy `first[rest]*` identifier capture: the captured name and the rest. -/
def takeIdent (first rest : Char → Bool) (s : List Char) : Option (List Char × List Char) :=
  match s with
  | [] => none
  | c :: cs =>
    if first c then some (c :: cs.takeWhile rest, cs.dropWhile rest) else none

/-- Left-to-right removal of every occurrence of the three-character pattern
`[p1, p2, p3]` (the semantics of `replace(new RegExp(quoteChar, 'g'), '')`
for the triple-quote patterns, which contain no regex metacharacters). -/
def removeTrip (p1 p2 p3 : Char) : List Char → List Char
  | [] => []
  | [c1] => [c1]
  | [c1, c2] => [c1, c2]
  | c1 :: c2 :: c3 :: rest2 =>
    if c1 = p1 && c2 = p2 && c3 = p3 then removeTrip p1 p2 p3 rest2
    else c1 :: removeTrip p1 p2 p3 (c2 :: c3 :: rest2)

/-- The call `replace(new RegExp(quoteChar, 'g'), '')` where `quoteChar` is the
three-character triple-quote string taken from the source line. -/
def removeAllPat (pat : List Char) (s : List Char) : List Char :=
  match pat with
  | [a, b, c] => removeTrip a b c s
  | _ => s

/-- JavaScript `lines.slice(a, b)` (0-based, end-exclusive). -/
def sliceL (lines : List (List Char)) (a b : Nat) : List (List Char) :=
  (lines.drop a).take (b - a)

/-- The chunk type enumeration of `CodeChunk['chunkType']`
(`'class'` is spelt `cls` because `class` is a Lean keyword). -/
inductive ChunkType where
  | function | cls | method | arrow_function | other
deriving DecidableEq, Repr

/-- The language enumeration of `CodeChunk['language']`. -/
inductive Language where
  | python | javascript | typescript | jsx | tsx
deriving DecidableEq, Repr

/-- The `CodeChunk` interface of `src/source/types/codechunk.ts`. -/
structure CodeChunk where
  filePath : String
  language : Language
  chunkType : ChunkType
  name : String
  startLine : Nat
  endLine : Nat
  docString : Option String
  code : String
deriving DecidableEq, Repr

/-! ### The Python matcher

Regex `/^(async\s+def|def|class)\s+([a-zA-Z_][a-zA-Z0-9_]*)/gm`, applied via
a `pattern.exec` loop.  With the `m` flag the `^` anchor restricts match
positions to line starts.  The three keyword alternatives are tried in the
written order; since they begin with pairwise distinct letters, failure of
the tail of one alternative cannot be rescued by another, so no cross-
alternative backtracking is needed. -/

/-- A single match of the Python pattern: the text of capture group 1
(the keyword, including any interior whitespace of `async\s+def`), capture
group 2 (the name), and the total length of `match[0]`. -/
structure PyM where
  kw : List Char
  name : List Char
  len : Nat
deriving DecidableEq, Repr

/-- Try `(async\s+def|def|class)` at the head of `s`; return the matched
keyword text and the rest. -/
def pyKw (s : List Char) : Option (List Char × List Char) :=
  match (do
    let s1 ← dropLit ['a', 's', 'y', 'n', 'c'] s
    let (w, s2) ← takeWs1 s1
    let s3 ← dropLit ['d', 'e', 'f'] s2
    pure (['a', 's', 'y', 'n', 'c'] ++ w ++ ['d', 'e', 'f'], s3)) with
  | some r => some r
  | none =>
    match dropLit ['d', 'e', 'f'] s with
    | some s1 => some (['d', 'e', 'f'], s1)
    | none =>
      match dropLit ['c', 'l', 'a', 's', 's'] s with
      | some s1 => some (['c', 'l', 'a', 's', 's'], s1)
      | none => none

/-- Try the whole Python pattern at the head of `s`. -/
def matchPyAt (s : List Char) : Option PyM :=
  match pyKw s with
  | none => none
  | some (kw, s1) =>
    match takeWs1 s1 with
    | none => none
    | some (_, s2) =>
      match takeIdent isPyStartChar isWordChar s2 with
      | none => none
      | some (nm, s3) => some ⟨kw, nm, s.length - s3.length⟩

/-- The `pattern.exec` loop for the Python pattern: walk every position of
the content; a position is eligible if it is at or beyond the current
`lastIndex` (`next`) and, because of the `^` anchor with the `m` flag, lies
at the start of a line (position 0 or preceded by a line terminator).  On a
match, `lastIndex` advances to the end of `match[0]`. -/
def pyScanAux (next i : Nat) (atLS : Bool) : List Char → List (Nat × PyM)
  | [] => []
  | c :: rest =>
    let nextLS := (c = '\n' || c = '\r')
    if next ≤ i && atLS then
      match matchPyAt (c :: rest) with
      | some m => (i, m) :: pyScanAux (i + m.len) (i + 1) nextLS rest
      | none => pyScanAux next (i + 1) nextLS rest
    else pyScanAux next (i + 1) nextLS rest

/-- All matches of the Python pattern over `content`, in order. -/
def pyScan (content : List Char) : List (Nat × PyM) :=
  pyScanAux 0 0 true content

/-! ### Python block extent, docstring, and method detection -/

/-- The test `!line || line.trim() === ''`. -/
def isBlankL (l : List Char) : Bool := l.isEmpty || (trimWs l).isEmpty

/-- The value `line.length - line.trimStart().length` (also the length of the
`/^\s*/` match). -/
def indentOf (l : List Char) : Nat := l.length - (trimStartWs l).length

/-- The loop of `_findPythonBlockEnd` that walks the lines after the
declaration: `e` is the current `endLine` (1-based), `i` the 0-based index
of the line at the head of the list.  Blank lines are skipped; the first
non-blank line with indentation at or below `I` stops the walk; any other
non-blank line advances `endLine` to its own (1-based) number. -/
def pyExtentGo (I : Nat) (e i : Nat) : List (List Char) → Nat
  | [] => e
  | l :: rest =>
    if isBlankL l then pyExtentGo I e (i + 1) rest
    else if indentOf l ≤ I then e
    else pyExtentGo I (i + 1) (i + 1) rest

/-- The docstring-closing search of `_findPythonBlockEnd`: the first line at
index ≥ `k` whose text contains `pat` (the loop
`for (i = startLineIndex + 1; …) if (line.includes(quoteChar)) …`). -/
def findIncludeIdx (pat : List Char) (k : Nat) : List (List Char) → Option Nat
  | [] => none
  | l :: rest => if containsSub pat l then some k else findIncludeIdx pat (k + 1) rest

/-- Result record of `_findPythonBlockEnd`. -/
structure PyBlockRes where
  endLine : Nat
  blockCode : List Char
  docstring : Option (List Char)
deriving DecidableEq, Repr

/-- Source `CodeParser._findPythonBlockEnd(lines, startLine)`. -/
def findPythonBlockEnd (lines : List (List Char)) (startLine : Nat) : PyBlockRes :=
  let sIdx := startLine - 1
  let initialIndent := ((lines.getD sIdx []).takeWhile isWs).length
  let firstLineAfterDef := trimWs (lines.getD (sIdx + 1) [])
  let docstring :=
    if startsWithL [dquote, dquote, dquote] firstLineAfterDef ||
       startsWithL [squote, squote, squote] firstLineAfterDef then
      let quoteChar := firstLineAfterDef.take 3
      match findIncludeIdx quoteChar (sIdx + 1) (lines.drop (sIdx + 1)) with
      | some dEnd =>
        some (trimWs (removeAllPat quoteChar (joinNL (sliceL lines (sIdx + 1) (dEnd + 1)))))
      | none => none
    else none
  let endLine := pyExtentGo initialIndent startLine (sIdx + 1) (lines.drop (sIdx + 1))
  let blockCode := joinNL (sliceL lines sIdx endLine)
  ⟨endLine, blockCode, docstring⟩

/-- The backward walk of `_isPythonMethod` over the earlier lines, given in
reverse order (`for (i = startLineIndex - 1; i >= 0; i--)`). -/
def pyMethodScan (indent : Nat) : List (List Char) → Bool
  | [] => false
  | prev :: rest =>
    let prevIndent := indentOf prev
    if startsWithL ['c', 'l', 'a', 's', 's', ' '] (trimWs prev) && prevIndent < indent then true
    else if prevIndent < indent then false
    else pyMethodScan indent rest

/-- Source `CodeParser._isPythonMethod(lines, startLineIndex)`. -/
def isPythonMethod (lines : List (List Char)) (startLineIndex : Nat) : Bool :=
  if startLineIndex = 0 then false
  else
    let line := lines.getD startLineIndex []
    let indent := indentOf line
    if indent = 0 then false
    else pyMethodScan indent (lines.take startLineIndex).reverse

/-- Build one chunk from one Python match, as the loop body of
`_parsePython` does (`const name = match[2] || 'unknown'`). -/
def pyChunkOf (content : List Char) (lines : List (List Char)) (path : String)
    (im : Nat × PyM) : CodeChunk :=
  let i := im.1
  let m := im.2
  let name := if m.name.isEmpty then "unknown" else ⟨m.name⟩
  let startLine := lineCount (content.take i)
  let r := findPythonBlockEnd lines startLine
  let isMethod := isPythonMethod lines (startLine - 1)
  let chunkType :=
    if m.kw = ['c', 'l', 'a', 's', 's'] then ChunkType.cls
    else if isMethod then ChunkType.method
    else ChunkType.function
  { filePath := path, language := Language.python, chunkType := chunkType,
    name := name, startLine := startLine, endLine := r.endLine,
    docString := r.docstring.map (⟨·⟩), code := ⟨r.blockCode⟩ }

/-- Source `CodeParser._parsePython(content, filePath)`. -/
def parsePython (content : String) (filePath : String) : List CodeChunk :=
  let lines := splitNL content.data
  (pyScan content.data).map (pyChunkOf content.data lines filePath)

/-! ### The JS/TS matcher

Regex (flag `g`, no `m`):

    (?:\/\*\*[\s\S]*?\*\/[\s\n]*)?(?:export\s+)?(async\s+)?(function\*?|class)\s+([a-zA-Z0-9_]+)
    |(?:export\s+)?(const|let|var)\s+([a-zA-Z0-9_]+)\s*=\s*(?:async)?\s*\(.*?\)\s*=>

The lazy sub-patterns (`[\s\S]*?` before `*\/`, `.*?` before `)`) are
embedded with genuine backtracking: each candidate stopping point is tried
in order, falling to the next on failure of the continuation.  The `\s+`
and `\s*`/`[\s\n]*` runs are taken by maximal munch, which agrees with the
backtracking semantics because the token after each of them begins with a
non-whitespace character.  Optional groups try the "present" branch first
and fall back to "absent". -/

/-- A single match of the JS/TS pattern: `match[2]` (the
`function`/`function*`/`class` keyword, absent for the arrow alternative),
the captured name (`match[3]` or `match[5]`), and the length of `match[0]`. -/
structure JSM where
  kw : Option (List Char)
  name : List Char
  len : Nat
deriving DecidableEq, Repr

/-- Regex `\s+([a-zA-Z0-9_]+)` — the tail of alternative 1 after the keyword; the
keyword text is returned verbatim so that `match[2] === 'class'` and
`match[2]?.includes('function')` can be replayed on it. -/
def jsKwTail (kwText : List Char) (s : List Char) :
    Option (List Char × List Char × List Char) :=
  match takeWs1 s with
  | none => none
  | some (_, s1) =>
    match takeIdent isWordChar isWordChar s1 with
    | none => none
    | some (nm, s2) => some (kwText, nm, s2)

/-- Regex `(function\*?|class)\s+([a-zA-Z0-9_]+)`: keyword alternatives in written
order, the optional `*` of `function\*?` tried greedily (with, then
without). -/
def jsKeywordPart (s : List Char) : Option (List Char × List Char × List Char) :=
  match dropLit ['f', 'u', 'n', 'c', 't', 'i', 'o', 'n'] s with
  | some s1 =>
    (match s1 with
     | '*' :: s2 =>
       (match jsKwTail ['f', 'u', 'n', 'c', 't', 'i', 'o', 'n', '*'] s2 with
        | some r => some r
        | none => jsKwTail ['f', 'u', 'n', 'c', 't', 'i', 'o', 'n'] s1)
     | _ => jsKwTail ['f', 'u', 'n', 'c', 't', 'i', 'o', 'n'] s1)
  | none =>
    match dropLit ['c', 'l', 'a', 's', 's'] s with
    | some s1 => jsKwTail ['c', 'l', 'a', 's', 's'] s1
    | none => none

/-- Regex `(async\s+)?` before the keyword (present branch first). -/
def jsAsyncPart (s : List Char) : Option (List Char × List Char × List Char) :=
  match (do
    let s1 ← dropLit ['a', 's', 'y', 'n', 'c'] s
    let (_, s2) ← takeWs1 s1
    jsKeywordPart s2) with
  | some r => some r
  | none => jsKeywordPart s

/-- Regex `(?:export\s+)?` before `(async\s+)?` (present branch first). -/
def jsExportPart (s : List Char) : Option (List Char × List Char × List Char) :=
  match (do
    let s1 ← dropLit ['e', 'x', 'p', 'o', 'r', 't'] s
    let (_, s2) ← takeWs1 s1
    jsAsyncPart s2) with
  | some r => some r
  | none => jsAsyncPart s

/-- The lazy `[\s\S]*?\*\/` search inside the optional JSDoc group: try the
continuation (`[\s\n]*` then the rest of alternative 1) after each `*/` in
turn, extending the lazily matched interior on failure. -/
def jsDocClose : List Char → Option (List Char × List Char × List Char)
  | [] => none
  | '*' :: rest =>
    (match rest with
     | '/' :: rest2 =>
       (match jsExportPart (rest2.dropWhile isWs) with
        | some r => some r
        | none => jsDocClose rest)
     | _ => jsDocClose rest)
  | _ :: rest => jsDocClose rest

/-- Alternative 1: `(?:\/\*\*[\s\S]*?\*\/[\s\n]*)?(?:export\s+)?(async\s+)?
(function\*?|class)\s+([a-zA-Z0-9_]+)`; the optional JSDoc group is tried
first when the text starts with `/**`. -/
def jsAlt1 (s : List Char) : Option (List Char × List Char × List Char) :=
  match s with
  | '/' :: '*' :: '*' :: rest =>
    (match jsDocClose rest with
     | some r => some r
     | none => jsExportPart s)
  | _ => jsExportPart s

/-- Regex `\s*=>` — the tail after the closing parenthesis of the arrow
alternative. -/
def jsArrowTail (s : List Char) : Option (List Char) :=
  dropLit ['=', '>'] (s.dropWhile isWs)

/-- The lazy `.*?\)` search of the arrow alternative: `.` does not match a
line terminator, so the search fails at `\n`/`\r`; each `)` is tried in
turn. -/
def jsParenClose : List Char → Option (List Char)
  | [] => none
  | ')' :: rest =>
    (match jsArrowTail rest with
     | some r => some r
     | none => jsParenClose rest)
  | '\n' :: _ => none
  | '\r' :: _ => none
  | _ :: rest => jsParenClose rest

/-- Regex `\(.*?\)\s*=>`. -/
def jsParenPart (s : List Char) : Option (List Char) :=
  match s with
  | '(' :: rest => jsParenClose rest
  | _ => none

/-- Regex `(const|let|var)\s+([a-zA-Z0-9_]+)\s*=\s*(?:async)?\s*\(.*?\)\s*=>`. -/
def jsAlt2Decl (s : List Char) : Option (List Char × List Char) :=
  let kwRest :=
    match dropLit ['c', 'o', 'n', 's', 't'] s with
    | some s1 => some s1
    | none =>
      match dropLit ['l', 'e', 't'] s with
      | some s1 => some s1
      | none => dropLit ['v', 'a', 'r'] s
  match kwRest with
  | none => none
  | some s1 =>
    match takeWs1 s1 with
    | none => none
    | some (_, s2) =>
      match takeIdent isWordChar isWordChar s2 with
      | none => none
      | some (nm, s3) =>
        match dropLit ['='] (s3.dropWhile isWs) with
        | none => none
        | some s4 =>
          let s5 := s4.dropWhile isWs
          match dropLit ['a', 's', 'y', 'n', 'c'] s5 with
          | some s6 =>
            (match jsParenPart (s6.dropWhile isWs) with
             | some rest => some (nm, rest)
             | none =>
               match jsParenPart s5 with
               | some rest => some (nm, rest)
               | none => none)
          | none =>
            match jsParenPart s5 with
            | some rest => some (nm, rest)
            | none => none

/-- Alternative 2 with its own optional `export` prefix. -/
def jsAlt2 (s : List Char) : Option (List Char × List Char) :=
  match (do
    let s1 ← dropLit ['e', 'x', 'p', 'o', 'r', 't'] s
    let (_, s2) ← takeWs1 s1
    jsAlt2Decl s2) with
  | some r => some r
  | none => jsAlt2Decl s

/-- Try the whole JS/TS pattern at the head of `s` (alternative 1 first). -/
def matchJSAt (s : List Char) : Option JSM :=
  match jsAlt1 s with
  | some (kw, nm, rest) => some ⟨some kw, nm, s.length - rest.length⟩
  | none =>
    match jsAlt2 s with
    | some (nm, rest) => some ⟨none, nm, s.length - rest.length⟩
    | none => none

/-- The `pattern.exec` loop for the JS/TS pattern (no `m` flag, so every
position at or beyond `lastIndex` is eligible). -/
def jsScanAux (next i : Nat) : List Char → List (Nat × JSM)
  | [] => []
  | c :: rest =>
    if next ≤ i then
      match matchJSAt (c :: rest) with
      | some m => (i, m) :: jsScanAux (i + m.len) (i + 1) rest
      | none => jsScanAux next (i + 1) rest
    else jsScanAux next (i + 1) rest

/-- All matches of the JS/TS pattern over `content`, in order. -/
def jsScan (content : List Char) : List (Nat × JSM) :=
  jsScanAux 0 0 content

/-! ### `_findJSBlockEnd`: JSDoc back-reference, brace matching -/

/-- Regex `([\s\S]*?)\*\/$` applied to the text after a candidate `/**`: the
interior is everything before the final two characters, which must be
`*/` (the `$` anchor admits only that single stopping point). -/
def docInterior (rest : List Char) : Option (List Char) :=
  if 2 ≤ rest.length && decide (rest.drop (rest.length - 2) = ['*', '/']) then
    some (rest.take (rest.length - 2))
  else none

/-- The call `content.substring(0, startPos).match(/\/\*\*([\s\S]*?)\*\/$/)`:
the leftmost `/**` whose interior runs to a final `*/` closing the
prefix. -/
def docSearch : List Char → Option (List Char)
  | [] => none
  | '/' :: rest =>
    (match rest with
     | '*' :: '*' :: rest2 =>
       (match docInterior rest2 with
        | some r => some r
        | none => docSearch rest)
     | _ => docSearch rest)
  | _ :: rest => docSearch rest

/-- One line of the JSDoc post-processing:
`line.trim().replace(/^\* ?/, '')`. -/
def deStar (l : List Char) : List Char :=
  match trimWs l with
  | [] => []
  | c :: rest =>
    if c = '*' then
      match rest with
      | c2 :: rest2 => if c2 = ' ' then rest2 else rest
      | [] => []
    else c :: rest

/-- The chain `docMatch[1].split('\n').map(line => line.trim().replace(/^\* ?/, ''))
.join('\n').trim()`. -/
def docProcess (mid : List Char) : List Char :=
  trimWs (joinNL ((splitNL mid).map deStar))

/-- First index ≥ `k` whose character satisfies `p` (the
`while (i < content.length && content[i] !== '{') i++` search). -/
def idxOfFrom (p : Char → Bool) (k : Nat) : List Char → Option Nat
  | [] => none
  | c :: rest => if p c then some k else idxOfFrom p (k + 1) rest

/-- Index of the first `{` character at or after `startPos`. -/
def braceFrom (content : List Char) (startPos : Nat) : Option Nat :=
  idxOfFrom (fun c => c = obrace) startPos (content.drop startPos)

/-- The mutable state of the brace/string scan:
`openBraces`, `inString`, `escape`, `firstBraceFound`. -/
structure ScanSt where
  openBraces : Int
  inString : Option Char
  escape : Bool
  firstBraceFound : Bool
deriving DecidableEq, Repr

/-- The state at the top of the scanning `for` loop. -/
def initSt : ScanSt := ⟨0, none, false, false⟩

/-- One iteration of the scanning `for` loop of `_findJSBlockEnd` on
character `c`. -/
def jsStep (st : ScanSt) (c : Char) : ScanSt :=
  match st.inString with
  | some q =>
    if c = q && !st.escape then { st with inString := none }
    else { st with escape := (c = '\\' && !st.escape) }
  | none =>
    if c = dquote || c = squote || c = btick then
      { st with inString := some c, escape := false }
    else if c = obrace then
      { st with openBraces := st.openBraces + 1, firstBraceFound := true }
    else if c = cbrace then
      { st with openBraces := st.openBraces - 1 }
    else st

/-- The scanning `for` loop: step through the characters from index `i`
onward; stop (returning the current index) as soon as
`firstBraceFound && openBraces === 0` holds after a step. -/
def jsScanLoop (st : ScanSt) (i : Nat) : List Char → Option Nat
  | [] => none
  | c :: rest =>
    let st2 := jsStep st c
    if st2.firstBraceFound && st2.openBraces = 0 then some i
    else jsScanLoop st2 (i + 1) rest

/-- Result record of `_findJSBlockEnd`. -/
structure JSBlockRes where
  endLine : Nat
  blockCode : List Char
  docstring : Option (List Char)
deriving DecidableEq, Repr

/-- Source `CodeParser._findJSBlockEnd(content, startPos, lines)`. -/
def findJSBlockEnd (content : List Char) (startPos : Nat)
    (lines : List (List Char)) : JSBlockRes :=
  let docstring := (docSearch (content.take startPos)).map docProcess
  let cbs0 := lineCount (content.take startPos) - 1
  match braceFrom content startPos with
  | none =>
    ⟨lines.length, joinNL (lines.drop cbs0), docstring⟩
  | some i0 =>
    let cbs := lineCount (content.take i0) - 1
    match jsScanLoop initSt i0 (content.drop i0) with
    | some j =>
      let endLine := lineCount (content.take (j + 1))
      ⟨endLine, joinNL (sliceL lines cbs endLine), docstring⟩
    | none =>
      ⟨lines.length, joinNL (lines.drop cbs), docstring⟩

/-- Build one chunk from one JS/TS match, as the loop body of
`_parseJavaScriptTypeScript` does: `match[3] || match[5] || 'unknown'` for
the name, then `match[2] === 'class'`, `match[2]?.includes('function')`,
`match[0].includes('=>')` in turn for the chunk type (default `other`). -/
def jsChunkOf (content : List Char) (lines : List (List Char)) (path : String)
    (lang : Language) (im : Nat × JSM) : CodeChunk :=
  let i := im.1
  let m := im.2
  let startLine := lineCount (content.take i)
  let r := findJSBlockEnd content i lines
  let m0 := (content.drop i).take m.len
  let name := if m.name.isEmpty then "unknown" else ⟨m.name⟩
  let chunkType :=
    if m.kw = some ['c', 'l', 'a', 's', 's'] then ChunkType.cls
    else if (m.kw.map (fun t =>
        containsSub ['f', 'u', 'n', 'c', 't', 'i', 'o', 'n'] t)).getD false then
      ChunkType.function
    else if containsSub ['=', '>'] m0 then ChunkType.arrow_function
    else ChunkType.other
  { filePath := path, language := lang, chunkType := chunkType,
    name := name, startLine := startLine, endLine := r.endLine,
    docString := r.docstring.map (⟨·⟩), code := ⟨r.blockCode⟩ }

/-- Source `CodeParser._parseJavaScriptTypeScript(content, filePath, language)`. -/
def parseJS (content : String) (filePath : String) (language : Language) :
    List CodeChunk :=
  let lines := splitNL content.data
  (jsScan content.data).map (jsChunkOf content.data lines filePath language)

/-! ### `parseDirectory` and the extension table -/

/-- Source `CodeParser.SUPPORTED_EXTENSIONS` (an absent key gives `undefined`,
which is falsy, so the record lookup is an `Option`). -/
def SUPPORTED_EXTENSIONS : String → Option Language
  | ".py" => some Language.python
  | ".js" => some Language.javascript
  | ".ts" => some Language.typescript
  | ".jsx" => some Language.jsx
  | ".tsx" => some Language.tsx
  | _ => none

/-- Node's POSIX `path.extname` on ordinary file names: within the final
path component, the substring from the last `.` to the end; `''` when
there is no `.` or when the only `.` is the leading character of the
component.  (`readdir` never yields the special `.`/`..` entries, so
those are out of scope.) -/
def extname (p : String) : String :=
  let b := ((p.data.reverse.takeWhile (fun c => c ≠ '/')).reverse)
  match (b.reverse.findIdx? (fun c => c = '.')) with
  | none => ""
  | some k =>
    let i := b.length - 1 - k
    if i = 0 then "" else ⟨b.drop i⟩

/-- One enumerated file, with the outcome of `fs.promises.readFile` for it:
either its text content or the error it raises. -/
structure FsFile where
  path : String
  read : Except String String
deriving Repr

/-- Source `CodeParser.parseDirectory`, applied to the already-enumerated list of
files (the result of `getAllFiles`): supported files are read and parsed in
order, their chunks concatenated; a failing read of a supported file aborts
the whole call with the wrapping error; unsupported files are skipped
without being read. -/
def parseDirectory (files : List FsFile) : Except String (List CodeChunk) :=
  match files with
  | [] => Except.ok []
  | f :: rest =>
    match SUPPORTED_EXTENSIONS (extname f.path) with
    | none => parseDirectory rest
    | some language =>
      match f.read with
      | Except.error e =>
        Except.error ("Failed to read or parse file " ++ f.path ++ ": " ++ e)
      | Except.ok content =>
        let chunks :=
          if language = Language.python then parsePython content f.path
          else parseJS content f.path language
        match parseDirectory rest with
        | Except.error e => Except.error e
        | Except.ok cs => Except.ok (chunks ++ cs)

/-! ### Spec-side helper definitions

These restate notions from the specification's vocabulary so that theorems
can compare the implementation against them. -/

/-- The verbatim join of lines `a..b` (1-based, inclusive) of the line-split
text of `content` — the spec's "exact joined text of lines
`startLine..endLine`". -/
def lineSlice (content : String) (a b : Nat) : String :=
  ⟨joinNL (sliceL (splitNL content.data) (a - 1) b)⟩

/-- A line that does not terminate a Python block of declaration
indentation `I`: it is blank (skipped) or strictly deeper than `I`. -/
def pyKeep (I : Nat) (l : List Char) : Bool :=
  isBlankL l || decide (I < indentOf l)

/-- The index of the last non-blank entry of a list of lines, if any. -/
def lastNonBlankIdx : List (List Char) → Option Nat
  | [] => none
  | l :: rest =>
    match lastNonBlankIdx rest with
    | some j => some (j + 1)
    | none => if isBlankL l then none else some 0

/-! ### Concrete fixtures used by the claim theorems -/

/-- A JSDoc block immediately preceding a `function` declaration (the
`JavaScript parser - JSDoc extraction` fixture of
`src/test/utils/parser.test.ts`). -/
def exC2js : String :=
  "/**\n * Adds two numbers\n */\nfunction add(a, b) \x7b\n    return a + b;\n\x7d\n\nfunction noDoc() \x7b\n    return true;\n\x7d"

/-- A Python class with a docstring, one method at indentation 4, and one
top-level function (the `main.py` fixture of the test suite, abbreviated). -/
def exC4py : String :=
  "class MyClass:\n    \x22\x22\x22A simple class.\x22\x22\x22\n    def greet(self):\n        pass\n\ndef top():\n    return True\n"

/-- A JSDoc'd JS function: the match starts at the comment (line 1) but the
emitted code starts at the line of the block's `{` (line 4). -/
def exC1js : String := "/**\n * d\n */\nfunction f() \x7b\n  return 1;\n\x7d"

/-- A Python function whose docstring opener has no closing triple quote. -/
def exC3py : String := "def f():\n    \x22\x22\x22Unterminated docstring\n    pass"

/-- An arrow function whose parameter list contains a brace inside a string
literal: `const f = (a = '{') => {` / `  return '}';` / `}`. -/
def exC5js : String :=
  "const f = (a = \x27\x7b\x27) => \x7b\n  return \x27\x7d\x27;\n\x7d"

/-- The single chunk of the one-function Python file used by the C1
witness. -/
def exC1pyChunk : CodeChunk :=
  (parsePython "def f():\n    pass" "t.py").getD 0
    ⟨"", Language.python, ChunkType.other, "", 0, 0, none, ""⟩

/-- The line-split form of a Python file with an interior blank line and a
trailing non-indented line, for the C6 witness. -/
def exC6lines : List (List Char) :=
  splitNL "def f():\n    x = 1\n\n    y = 2\n\nz = 3".data

/-- The line-split form of a Python file with a two-line docstring, for the
C3 witness. -/
def exC3lines : List (List Char) :=
  splitNL "def f():\n    \x22\x22\x22Doc line one\n    continued.\x22\x22\x22\n    pass".data

/-- The line-split form of a Python file whose body line is not a
docstring, for the C3 witness's null case. -/
def exC3noDoc : List (List Char) := splitNL "def g():\n    pass".data

/-- The one-line arrow-function file with no brace at all, for the C9
witness. -/
def exC9content : List Char := "const simple = () => true;".data

/-- A directory listing with one supported and one unsupported file, for
the C7 witness. -/
def exC7files : List FsFile :=
  [⟨"d/a.py", Except.ok "def f():\n    pass"⟩, ⟨"readme.txt", Except.ok "hi"⟩]

/-- The single chunk produced from `exC7files`, for the C7 witness. -/
def exC7chunk : CodeChunk :=
  (parsePython "def f():\n    pass" "d/a.py").getD 0
    ⟨"", Language.python, ChunkType.other, "", 0, 0, none, ""⟩

/-! ### Basic facts about line splitting and counting -/

/-- JavaScript `split('\n')` never yields an empty array. -/
theorem splitNL_ne_nil : ∀ s : List Char, splitNL s ≠ []
  | [] => by simp [splitNL]
  | c :: rest => by
    unfold splitNL
    by_cases h : c = '\n'
    · simp [h]
    · simp only [h, if_false]
      cases hs : splitNL rest with
      | nil => exact absurd hs (splitNL_ne_nil rest)
      | cons l ls => simp

/-- Line numbers are 1-based: every prefix has at least one line. -/
theorem lineCount_pos (s : List Char) : 1 ≤ lineCount s := by
  unfold lineCount
  cases hs : splitNL s with
  | nil => exact absurd hs (splitNL_ne_nil s)
  | cons l ls => simp

/-- The line count of a string is its newline count plus one. -/
theorem lineCount_eq_count : ∀ s : List Char, lineCount s = s.count '\n' + 1
  | [] => by simp [lineCount, splitNL]
  | c :: rest => by
    unfold lineCount splitNL
    by_cases h : c = '\n'
    · subst h
      have := lineCount_eq_count rest
      simp only [lineCount] at this
      simp [List.count_cons, this]
    · cases hs : splitNL rest with
      | nil => exact absurd hs (splitNL_ne_nil rest)
      | cons l ls =>
        have := lineCount_eq_count rest
        simp only [lineCount, hs, List.length_cons] at this
        simp [h, hs, List.count_cons, List.length_cons]
        omega

/-- Newline counts of prefixes grow with the prefix. -/
theorem count_take_mono (s : List Char) (a : Char) {i j : Nat} (h : i ≤ j) :
    (s.take i).count a ≤ (s.take j).count a := by
  have h1 : (s.take j).take i = s.take i := by
    rw [List.take_take, Nat.min_eq_left h]
  calc (s.take i).count a = ((s.take j).take i).count a := by rw [h1]
    _ ≤ (s.take j).count a := (List.take_sublist i (s.take j)).count_le a

/-- Line numbers of prefixes grow with the prefix. -/
theorem lineCount_take_mono (s : List Char) {i j : Nat} (h : i ≤ j) :
    lineCount (s.take i) ≤ lineCount (s.take j) := by
  rw [lineCount_eq_count, lineCount_eq_count]
  exact Nat.add_le_add_right (count_take_mono s '\n' h) 1

/-- A prefix never has more lines than the whole string. -/
theorem lineCount_take_le (s : List Char) (i : Nat) :
    lineCount (s.take i) ≤ lineCount s := by
  rw [lineCount_eq_count, lineCount_eq_count]
  exact Nat.add_le_add_right ((List.take_sublist i s).count_le '\n') 1

/-- The total line count is the length of the line-split form. -/
theorem lineCount_eq_length_splitNL (s : List Char) :
    lineCount s = (splitNL s).length := rfl

/-! ### Generic facts about the scanning loops -/

/-- The linear search only returns indices at or after its starting index. -/
theorem idxOfFrom_ge (p : Char → Bool) :
    ∀ (L : List Char) (k r : Nat), idxOfFrom p k L = some r → k ≤ r
  | [], k, r => by simp [idxOfFrom]
  | c :: rest, k, r => by
    unfold idxOfFrom
    by_cases h : p c
    · simp only [h, if_true]
      intro hr
      obtain rfl : k = r := by simpa using hr
      exact Nat.le_refl _
    · simp only [h, if_false]
      intro hr
      exact Nat.le_of_succ_le (idxOfFrom_ge p rest (k + 1) r hr)

/-- The first-`{` search starts at `startPos`. -/
theorem braceFrom_ge (content : List Char) (startPos i0 : Nat)
    (h : braceFrom content startPos = some i0) : startPos ≤ i0 :=
  idxOfFrom_ge _ _ _ _ h

/-- The brace scan only stops at or after its starting index. -/
theorem jsScanLoop_ge :
    ∀ (L : List Char) (st : ScanSt) (i j : Nat), jsScanLoop st i L = some j → i ≤ j
  | [], _, _, _ => by simp [jsScanLoop]
  | c :: rest, st, i, j => by
    unfold jsScanLoop
    by_cases h : (jsStep st c).firstBraceFound && (jsStep st c).openBraces = 0
    · simp only [h, if_true]
      intro hr
      obtain rfl : i = j := by simpa using hr
      exact Nat.le_refl _
    · simp only [h, if_false]
      intro hr
      exact Nat.le_of_succ_le (jsScanLoop_ge rest (jsStep st c) (i + 1) j hr)

/-- The Python extent loop never moves `endLine` backwards. -/
theorem pyExtentGo_ge (I : Nat) :
    ∀ (L : List (List Char)) (e i : Nat), e ≤ i → e ≤ pyExtentGo I e i L
  | [], e, i, _ => Nat.le_refl e
  | l :: rest, e, i, h => by
    unfold pyExtentGo
    by_cases hb : isBlankL l
    · simp only [hb, if_true]
      exact pyExtentGo_ge I rest e (i + 1) (Nat.le_succ_of_le h)
    · simp only [hb, if_false]
      by_cases hi : indentOf l ≤ I
      · simp only [hi, if_true]
        exact Nat.le_refl e
      · simp only [hi, if_false]
        have := pyExtentGo_ge I rest (i + 1) (i + 1) (Nat.le_refl _)
        exact Nat.le_trans (Nat.le_succ_of_le h) this

/-- Behaviour of `_findJSBlockEnd` when no `{` exists at or after the match. -/
theorem findJSBlockEnd_nobrace (content : List Char) (startPos : Nat)
    (lines : List (List Char)) (h : braceFrom content startPos = none) :
    findJSBlockEnd content startPos lines =
      ⟨lines.length, joinNL (lines.drop (lineCount (content.take startPos) - 1)),
       (docSearch (content.take startPos)).map docProcess⟩ := by
  simp [findJSBlockEnd, h]

/-- Behaviour of `_findJSBlockEnd` when the brace scan finds the closing character. -/
theorem findJSBlockEnd_close (content : List Char) (startPos : Nat)
    (lines : List (List Char)) (i0 j : Nat)
    (h1 : braceFrom content startPos = some i0)
    (h2 : jsScanLoop initSt i0 (content.drop i0) = some j) :
    findJSBlockEnd content startPos lines =
      ⟨lineCount (content.take (j + 1)),
       joinNL (sliceL lines (lineCount (content.take i0) - 1)
         (lineCount (content.take (j + 1)))),
       (docSearch (content.take startPos)).map docProcess⟩ := by
  simp [findJSBlockEnd, h1, h2]

/-- Behaviour of `_findJSBlockEnd` when a `{` is found but never closed. -/
theorem findJSBlockEnd_noclose (content : List Char) (startPos : Nat)
    (lines : List (List Char)) (i0 : Nat)
    (h1 : braceFrom content startPos = some i0)
    (h2 : jsScanLoop initSt i0 (content.drop i0) = none) :
    findJSBlockEnd content startPos lines =
      ⟨lines.length, joinNL (lines.drop (lineCount (content.take i0) - 1)),
       (docSearch (content.take startPos)).map docProcess⟩ := by
  simp [findJSBlockEnd, h1, h2]

/-- A list's suffix from `b` is the slice from `b` to the list's length. -/
theorem drop_eq_sliceL (lines : List (List Char)) (b : Nat) :
    lines.drop b = sliceL lines b lines.length := by
  unfold sliceL
  rw [← List.length_drop]
  exact (List.take_length _).symm

/-! ### Claim C2 -/


/-- C2: the claim says that for a JS/TS `function` declaration immediately
preceded by a `/** ... */` block comment, `docString` is the de-starred,
trimmed comment interior.  The code disagrees: the regex's optional leading
group `(?:\/\*\*[\s\S]*?\*\/[\s\n]*)?` absorbs the comment into `match[0]`,
so `match.index` points at the comment itself and the test
`content.substring(0, startPos).match(/\/\*\*([\s\S]*?)\*\/$/)` is run
against the text *before* the comment, which does not end in `*/`; both
declarations therefore get `docString = null`, although `add` is
immediately preceded by a JSDoc block.  This contradicts the clear intent
of the documentation-extraction code path (and of the original test
expectation, which was downgraded to a `console.warn`), so it is recorded
as a code bug, evaluated here at the failing input. -/
theorem C2_jsdoc_not_extracted :
    (parseJS exC2js "test.js" Language.javascript).map
      (fun c => (c.name, c.docString)) = [("add", none), ("noDoc", none)] := by
  decide

/-! ### Claim C4 -/


/-- C4: the claim says a `def` directly nested under a `class` header at
greater indentation yields a `method` chunk.  The code disagrees: the
Python pattern `/^(async\s+def|def|class)\s+…/gm` is anchored at line
starts by `^` with the `m` flag, so an indented declaration such as
`    def greet(self):` produces no match at all — the nested method is
silently dropped and no chunk ever has type `method` (`_isPythonMethod`
can only return `true` for an indented declaration line, which never
matches).  The classification helper and the `'method'` branch are dead
code, contradicting their evident intent and the spec's scenario, so this
is recorded as a code bug, evaluated here at the failing input: only the
class and the top-level function are emitted. -/
theorem C4_method_never_emitted :
    (parsePython exC4py "main.py").map (fun c => (c.name, c.chunkType)) =
      [("MyClass", ChunkType.cls), ("top", ChunkType.function)] := by
  decide

/-! ### Claim C1 -/


/-- C1 (counterexample): the claim says every chunk's `code` equals the
verbatim join of lines `startLine..endLine`.  For a JS/TS declaration
preceded by a JSDoc block, `startLine` is the line of the match (the
comment's first line), while `blockCode` is sliced from
`codeBlockStartLineIndex`, the line of the first `{` at or after the match
— here line 4 — so `code` omits lines 1–3 and differs from the
`startLine..endLine` slice. -/
theorem C1_counterexample :
    (parseJS exC1js "a.js" Language.javascript).map
        (fun c => (c.startLine, c.endLine, c.code)) =
      [(1, 6, "function f() \x7b\n  return 1;\n\x7d")] ∧
    lineSlice exC1js 1 6 ≠ "function f() \x7b\n  return 1;\n\x7d" := by
  constructor
  · decide
  · decide

/-! ### Claim C3 -/


/-- C3 (counterexample): the claim says that when no closing triple-quote
marker is detected, `docString` is null.  The code's closing-marker scan
`for (let i = startLineIndex + 1; …)` starts at the opening line itself,
which always contains the quote marker, so the "closing" line is always
found immediately: this unterminated docstring nevertheless yields
`docString = "Unterminated docstring"` (and a multi-line docstring is
truncated to its first line for the same reason). -/
theorem C3_counterexample :
    (parsePython exC3py "t.py").map (fun c => c.docString) =
      [some "Unterminated docstring"] := by
  decide

/-! ### Claim C5 -/


/-- C5 (counterexample): the claim says `{`/`}` characters inside quoted
string literals never change the brace-depth counter.  But the scan's
starting point — the first `{` character at or after the match — is found
by a quote-blind search (`while (content[i] !== '{') i++`), so here it is
the `{` *inside* the string literal `'{'` on line 1.  String tracking then
starts out of phase: the scanner treats the literal's closing quote as an
opening quote, treats the real `=> {` as string contents, leaves its
string state at the opening quote of `'}'`, and then the `}` inside that
string literal decrements the counter to zero.  The block is reported as
ending on line 2 (inside a string literal), not on line 3 where the real
closing brace is. -/
theorem C5_counterexample :
    (parseJS exC5js "t.js" Language.javascript).map
      (fun c => (c.name, c.startLine, c.endLine)) = [("f", 1, 2)] := by
  decide

/-- C1 (amended): the claim's bounds `1 ≤ startLine ≤ endLine` hold for
every chunk of both extractors, and `code` is always a verbatim join of a
contiguous 1-based line range `b..endLine` of the source file's line-split
text; for Python chunks `b = startLine` exactly as the claim states, while
for JS/TS chunks `b` is the line of the first `{` at or after the match
(which can lie after `startLine`, e.g. when a JSDoc block is part of the
match), so a JS/TS chunk's `code` can omit the first lines of its
`startLine..endLine` range. -/
theorem C1_amended_verbatim_slice :
    (∀ (content path : String) (c : CodeChunk), c ∈ parsePython content path →
      1 ≤ c.startLine ∧ c.startLine ≤ c.endLine ∧
      c.code = lineSlice content c.startLine c.endLine) ∧
    (∀ (content path : String) (lang : Language) (c : CodeChunk),
      c ∈ parseJS content path lang →
      1 ≤ c.startLine ∧ c.startLine ≤ c.endLine ∧
      ∃ b, c.startLine ≤ b ∧ b ≤ c.endLine ∧
        c.code = lineSlice content b c.endLine) := by
  constructor
  · intro content path c hc
    obtain ⟨⟨i, m⟩, hmem, rfl⟩ := List.mem_map.mp hc
    refine ⟨lineCount_pos _, ?_, ?_⟩
    · show lineCount (content.data.take i) ≤
        pyExtentGo _ (lineCount (content.data.take i))
          ((lineCount (content.data.take i) - 1) + 1) _
      exact pyExtentGo_ge _ _ _ _ (by omega)
    · rfl
  · intro content path lang c hc
    obtain ⟨⟨i, m⟩, hmem, rfl⟩ := List.mem_map.mp hc
    cases hbr : braceFrom content.data i with
    | none =>
      have hfe := findJSBlockEnd_nobrace content.data i (splitNL content.data) hbr
      refine ⟨lineCount_pos _, ?_, ?_⟩
      · show lineCount (content.data.take i) ≤
          (findJSBlockEnd content.data i (splitNL content.data)).endLine
        rw [hfe]
        exact lineCount_take_le content.data i
      · refine ⟨lineCount (content.data.take i), Nat.le_refl _, ?_, ?_⟩
        · show lineCount (content.data.take i) ≤
            (findJSBlockEnd content.data i (splitNL content.data)).endLine
          rw [hfe]
          exact lineCount_take_le content.data i
        · show (⟨(findJSBlockEnd content.data i (splitNL content.data)).blockCode⟩ : String) =
            lineSlice content (lineCount (content.data.take i))
              (findJSBlockEnd content.data i (splitNL content.data)).endLine
          rw [hfe]
          show (⟨joinNL ((splitNL content.data).drop (lineCount (content.data.take i) - 1))⟩ : String) = _
          rw [drop_eq_sliceL]
          rfl
    | some i0 =>
      have hle0 : i ≤ i0 := braceFrom_ge content.data i i0 hbr
      have hsb : lineCount (content.data.take i) ≤ lineCount (content.data.take i0) :=
        lineCount_take_mono content.data hle0
      cases hloop : jsScanLoop initSt i0 (content.data.drop i0) with
      | some j =>
        have hij : i0 ≤ j := jsScanLoop_ge _ _ _ _ hloop
        have hfe := findJSBlockEnd_close content.data i (splitNL content.data) i0 j hbr hloop
        have hbe : lineCount (content.data.take i0) ≤ lineCount (content.data.take (j + 1)) :=
          lineCount_take_mono content.data (by omega)
        refine ⟨lineCount_pos _, ?_, ?_⟩
        · show lineCount (content.data.take i) ≤
            (findJSBlockEnd content.data i (splitNL content.data)).endLine
          rw [hfe]
          exact Nat.le_trans hsb hbe
        · refine ⟨lineCount (content.data.take i0), hsb, ?_, ?_⟩
          · show lineCount (content.data.take i0) ≤
              (findJSBlockEnd content.data i (splitNL content.data)).endLine
            rw [hfe]
            exact hbe
          · show (⟨(findJSBlockEnd content.data i (splitNL content.data)).blockCode⟩ : String) =
              lineSlice content (lineCount (content.data.take i0))
                (findJSBlockEnd content.data i (splitNL content.data)).endLine
            rw [hfe]
            rfl
      | none =>
        have hfe := findJSBlockEnd_noclose content.data i (splitNL content.data) i0 hbr hloop
        refine ⟨lineCount_pos _, ?_, ?_⟩
        · show lineCount (content.data.take i) ≤
            (findJSBlockEnd content.data i (splitNL content.data)).endLine
          rw [hfe]
          exact lineCount_take_le content.data i
        · refine ⟨lineCount (content.data.take i0), hsb, ?_, ?_⟩
          · show lineCount (content.data.take i0) ≤
              (findJSBlockEnd content.data i (splitNL content.data)).endLine
            rw [hfe]
            exact lineCount_take_le content.data i0
          · show (⟨(findJSBlockEnd content.data i (splitNL content.data)).blockCode⟩ : String) =
              lineSlice content (lineCount (content.data.take i0))
                (findJSBlockEnd content.data i (splitNL content.data)).endLine
            rw [hfe]
            show (⟨joinNL ((splitNL content.data).drop (lineCount (content.data.take i0) - 1))⟩ : String) = _
            rw [drop_eq_sliceL]
            rfl

/-- C1 witness: the amended theorem applied to the single chunk of the
one-function Python file `def f():\n    pass`. -/
theorem C1_amended_witness :
    1 ≤ exC1pyChunk.startLine ∧ exC1pyChunk.startLine ≤ exC1pyChunk.endLine ∧
    exC1pyChunk.code =
      lineSlice "def f():\n    pass" exC1pyChunk.startLine exC1pyChunk.endLine :=
  C1_amended_verbatim_slice.1 "def f():\n    pass" "t.py" exC1pyChunk (by decide)

/-- The two leading-whitespace measurements of the source
(`line.length - line.trimStart().length` and the `/^\s*/` match length)
agree. -/
theorem indentOf_eq_takeWhile_length (l : List Char) :
    indentOf l = (l.takeWhile isWs).length := by
  unfold indentOf trimStartWs
  have h := congrArg List.length (List.takeWhile_append_dropWhile (p := isWs) (l := l))
  simp only [List.length_append] at h
  omega

/-- Unfolding lemma for `lastNonBlankIdx` on a cons cell. -/
theorem lastNonBlankIdx_cons (l : List Char) (M : List (List Char)) :
    lastNonBlankIdx (l :: M) =
      (match lastNonBlankIdx M with
       | some j => some (j + 1)
       | none => if isBlankL l then none else some 0) := rfl

/-- The extent loop computes exactly: the 1-based number of the last
non-blank line of the region that precedes the first non-blank line with
indentation at or below `I` (blank lines being skipped when measuring),
or `e` (the declaration's own line) when that region has no non-blank
line. -/
theorem pyExtentGo_eq_spec (I : Nat) :
    ∀ (L : List (List Char)) (e i : Nat),
      pyExtentGo I e i L =
        (lastNonBlankIdx (L.takeWhile (pyKeep I))).elim e (fun j => i + j + 1)
  | [], e, i => by simp [pyExtentGo, lastNonBlankIdx, List.takeWhile]
  | l :: rest, e, i => by
    by_cases hb : isBlankL l
    · have hk : pyKeep I l = true := by simp [pyKeep, hb]
      have IH := pyExtentGo_eq_spec I rest e (i + 1)
      rw [show pyExtentGo I e i (l :: rest) = pyExtentGo I e (i + 1) rest from by
        simp [pyExtentGo, hb]]
      rw [IH, List.takeWhile_cons, hk]
      simp only [if_true]
      cases hlnb : lastNonBlankIdx (rest.takeWhile (pyKeep I)) with
      | some j =>
        simp only [lastNonBlankIdx_cons, hlnb, Option.elim]
        omega
      | none => simp [lastNonBlankIdx_cons, hlnb, hb, Option.elim]
    · by_cases hi : indentOf l ≤ I
      · have hnk : pyKeep I l = false := by
          have : ¬ (I < indentOf l) := Nat.not_lt.mpr hi
          simp [pyKeep, hb, this]
        rw [show pyExtentGo I e i (l :: rest) = e from by simp [pyExtentGo, hb, hi]]
        rw [List.takeWhile_cons, hnk]
        simp [lastNonBlankIdx]
      · have hk : pyKeep I l = true := by
          have : I < indentOf l := Nat.lt_of_not_le hi
          simp [pyKeep, this]
        have IH := pyExtentGo_eq_spec I rest (i + 1) (i + 1)
        rw [show pyExtentGo I e i (l :: rest) = pyExtentGo I (i + 1) (i + 1) rest from by
          simp [pyExtentGo, hb, hi]]
        rw [IH, List.takeWhile_cons, hk]
        simp only [if_true]
        cases hlnb : lastNonBlankIdx (rest.takeWhile (pyKeep I)) with
        | some j =>
          simp only [lastNonBlankIdx_cons, hlnb, Option.elim]
          omega
        | none => simp [lastNonBlankIdx_cons, hlnb, hb, Option.elim]

/-- C6: for a Python declaration at 1-based line `startLine`, the block
runs from the declaration line to `endLine`, where `endLine` is the last
*non-blank* line of the run of lines after the declaration that are blank
or indented strictly deeper than the declaration (the run ends at the
first non-blank line with indentation at or below the declaration's own
indentation), and `endLine = startLine` when that run contains no
non-blank line; `blockCode` is the verbatim slice of lines
`startLine..endLine`, so interior blank lines stay included while blank
lines are skipped when measuring indentation and cannot themselves become
the end line. -/
theorem C6_python_block_extent (lines : List (List Char)) (startLine : Nat)
    (h1 : 1 ≤ startLine) :
    (findPythonBlockEnd lines startLine).endLine =
      ((lastNonBlankIdx ((lines.drop startLine).takeWhile
          (pyKeep (indentOf (lines.getD (startLine - 1) []))))).elim
        startLine (fun j => startLine + j + 1)) ∧
    (findPythonBlockEnd lines startLine).blockCode =
      joinNL (sliceL lines (startLine - 1) (findPythonBlockEnd lines startLine).endLine) := by
  constructor
  · show pyExtentGo ((lines.getD (startLine - 1) []).takeWhile isWs).length startLine
        ((startLine - 1) + 1) (lines.drop ((startLine - 1) + 1)) = _
    rw [pyExtentGo_eq_spec]
    have hs : startLine - 1 + 1 = startLine := by omega
    rw [hs, indentOf_eq_takeWhile_length]
  · rfl

/-- C6 witness: the block-extent characterization applied to a concrete
six-line file with an interior blank line and a trailing blank line. -/
theorem C6_witness :
    (findPythonBlockEnd exC6lines 1).endLine =
      ((lastNonBlankIdx ((exC6lines.drop 1).takeWhile
          (pyKeep (indentOf (exC6lines.getD (1 - 1) []))))).elim
        1 (fun j => 1 + j + 1)) ∧
    (findPythonBlockEnd exC6lines 1).blockCode =
      joinNL (sliceL exC6lines (1 - 1) (findPythonBlockEnd exC6lines 1).endLine) :=
  C6_python_block_extent exC6lines 1 (by decide)

/-- A list starts with any of its own prefixes. -/
theorem startsWithL_app : ∀ (pat r : List Char), startsWithL pat (pat ++ r) = true
  | [], _ => rfl
  | a :: as, r => by simp [startsWithL, startsWithL_app as r]

/-- Truth of `startsWithL pat s` means `s` literally extends `pat`. -/
theorem startsWithL_exists : ∀ (pat s : List Char), startsWithL pat s = true →
    ∃ r, s = pat ++ r
  | [], s, _ => ⟨s, rfl⟩
  | a :: as, [], h => by simp [startsWithL] at h
  | a :: as, b :: bs, h => by
    simp only [startsWithL, Bool.and_eq_true, decide_eq_true_eq] at h
    obtain ⟨rfl, h2⟩ := h
    obtain ⟨r, rfl⟩ := startsWithL_exists as bs h2
    exact ⟨r, rfl⟩

/-- The empty pattern is contained in every string (JS `includes('')`). -/
theorem containsSub_nil : ∀ s : List Char, containsSub [] s = true
  | [] => rfl
  | c :: rest => by simp [containsSub, startsWithL]

/-- A string contains every pattern it can be split around. -/
theorem containsSub_of_split (pat : List Char) :
    ∀ (u v : List Char), containsSub pat (u ++ pat ++ v) = true
  | [], v => by
    cases pat with
    | nil => simpa using containsSub_nil v
    | cons p ps =>
      show containsSub (p :: ps) ((p :: ps) ++ v) = true
      simp only [containsSub, Bool.or_eq_true]
      exact Or.inl (startsWithL_app (p :: ps) v)
  | a :: u, v => by
    show containsSub pat (a :: (u ++ pat ++ v)) = true
    simp only [containsSub, Bool.or_eq_true]
    exact Or.inr (containsSub_of_split pat u v)

/-- Trimming yields a contiguous infix of the original string. -/
theorem trimWs_infix (l : List Char) : ∃ u v, l = u ++ trimWs l ++ v := by
  refine ⟨l.takeWhile isWs, ((l.dropWhile isWs).reverse.takeWhile isWs).reverse, ?_⟩
  have h1 : l.takeWhile isWs ++ l.dropWhile isWs = l :=
    List.takeWhile_append_dropWhile isWs l
  have h2 := congrArg List.reverse
    (List.takeWhile_append_dropWhile isWs (l.dropWhile isWs).reverse)
  rw [List.reverse_append, List.reverse_reverse] at h2
  unfold trimWs
  conv_lhs => rw [← h1, ← h2]
  simp [List.append_assoc]

/-- A non-default `getD` result means the index is in range. -/
theorem getD_ne_nil_lt (lines : List (List Char)) (k : Nat)
    (h : lines.getD k [] ≠ []) : k < lines.length := by
  by_contra hk
  push_neg at hk
  rw [List.getD_eq_default _ _ hk] at h
  exact h rfl

/-- C3 (amended): when the trimmed line immediately after a Python
declaration begins with a triple double-quote or triple single-quote, the
closing-marker scan starts at that very line — which always contains the
opening marker — so it always stops there immediately: `docString` is that
single line with every triple-quote occurrence removed and the result
trimmed, and it is never null in this case.  (The claim's "scan forward
for the closing triple-quote; absence of a closing marker yields null"
behaviour does not occur: a multi-line docstring is truncated to its first
line and an unterminated one is still extracted.)  And when the trimmed
line immediately after the declaration does not begin with either triple
quote, `docString` is null. -/
theorem C3_amended_docstring_single_line :
    (∀ (lines : List (List Char)) (startLine : Nat), 1 ≤ startLine →
      (startsWithL [dquote, dquote, dquote] (trimWs (lines.getD startLine [])) = true ∨
       startsWithL [squote, squote, squote] (trimWs (lines.getD startLine [])) = true) →
      (findPythonBlockEnd lines startLine).docstring =
        some (trimWs (removeAllPat ((trimWs (lines.getD startLine [])).take 3)
          (lines.getD startLine [])))) ∧
    (∀ (lines : List (List Char)) (startLine : Nat), 1 ≤ startLine →
      startsWithL [dquote, dquote, dquote] (trimWs (lines.getD startLine [])) = false →
      startsWithL [squote, squote, squote] (trimWs (lines.getD startLine [])) = false →
      (findPythonBlockEnd lines startLine).docstring = none) := by
  constructor
  · intro lines startLine h1 h
    have hs : startLine - 1 + 1 = startLine := by omega
    have htne : trimWs (lines.getD startLine []) ≠ [] := by
      rcases h with h | h <;>
        (obtain ⟨r, hr⟩ := startsWithL_exists _ _ h; rw [hr]; simp)
    have hlne : lines.getD startLine [] ≠ [] := by
      intro hle
      rw [hle] at htne
      exact htne rfl
    have hlt : startLine < lines.length := getD_ne_nil_lt lines startLine hlne
    have hdrop : lines.drop startLine =
        lines.getD startLine [] :: lines.drop (startLine + 1) := by
      rw [List.drop_eq_getElem_cons hlt, List.getD_eq_getElem lines [] hlt]
    have hcont : containsSub ((trimWs (lines.getD startLine [])).take 3)
        (lines.getD startLine []) = true := by
      rcases h with h | h <;>
        · obtain ⟨r, hr⟩ := startsWithL_exists _ _ h
          obtain ⟨u, v, huv⟩ := trimWs_infix (lines.getD startLine [])
          rw [hr] at huv
          rw [hr]
          rw [show ∀ q1 q2 q3 : Char, List.take 3 ([q1, q2, q3] ++ r) = [q1, q2, q3] from
            fun _ _ _ => rfl]
          rw [huv]
          simpa [List.append_assoc] using containsSub_of_split _ u (r ++ v)
    have hcond : (startsWithL [dquote, dquote, dquote] (trimWs (lines.getD startLine [])) ||
        startsWithL [squote, squote, squote] (trimWs (lines.getD startLine []))) = true := by
      rcases h with h | h
      · rw [h]
        exact Bool.true_or _
      · rw [h]
        exact Bool.or_true _
    have hslice : sliceL lines startLine (startLine + 1) = [lines.getD startLine []] := by
      unfold sliceL
      rw [hdrop]
      simp
    simp only [findPythonBlockEnd, hs, hcond, if_true, hdrop, findIncludeIdx, hcont, hslice]
    rfl
  · intro lines startLine h1 hd hsq
    have hs : startLine - 1 + 1 = startLine := by omega
    simp only [findPythonBlockEnd, hs, hd, hsq, Bool.or_self, Bool.false_eq_true, if_false]

/-- C3 witness: the amended docstring theorem applied to a concrete file
whose docstring spans two lines (the extracted text is the de-quoted,
trimmed first docstring line), and to a concrete file with no docstring
at all (null). -/
theorem C3_amended_witness :
    ((findPythonBlockEnd exC3lines 1).docstring =
      some (trimWs (removeAllPat ((trimWs (exC3lines.getD 1 [])).take 3)
        (exC3lines.getD 1 [])))) ∧
    (findPythonBlockEnd exC3noDoc 1).docstring = none :=
  ⟨C3_amended_docstring_single_line.1 exC3lines 1 (by decide) (Or.inl (by decide)),
   C3_amended_docstring_single_line.2 exC3noDoc 1 (by decide) (by decide) (by decide)⟩

/-- C5 (amended): the brace-depth counter of the scan's step function is
insensitive to every character — `{` and `}` included — while the
scanner's string state is active, and outside string state it moves by
exactly +1 on `{`, −1 on `}`, and not at all on any character other than
a quote or brace.  This is the claim's string-awareness relative to the
*scanner's own* string state; it does not hold relative to the input's
actual string literals, because scanning begins at the first `{`
character at or after the match, located by a quote-blind search (see the
counterexample). -/
theorem C5_amended_scan_state :
    (∀ (st : ScanSt) (c q : Char), st.inString = some q →
      (jsStep st c).openBraces = st.openBraces ∧
      (jsStep st c).firstBraceFound = st.firstBraceFound) ∧
    (∀ (st : ScanSt) (c : Char), st.inString = none → c = obrace →
      (jsStep st c).openBraces = st.openBraces + 1) ∧
    (∀ (st : ScanSt) (c : Char), st.inString = none → c = cbrace →
      (jsStep st c).openBraces = st.openBraces - 1) ∧
    (∀ (st : ScanSt) (c : Char), st.inString = none →
      c ≠ dquote → c ≠ squote → c ≠ btick → c ≠ obrace → c ≠ cbrace →
      (jsStep st c).openBraces = st.openBraces ∧ (jsStep st c).inString = none) := by
  refine ⟨?_, ?_, ?_, ?_⟩
  · intro st c q h
    unfold jsStep
    rw [h]
    by_cases hc : (c = q && !st.escape) = true <;> simp [hc]
  · intro st c h hc
    subst hc
    unfold jsStep
    rw [h]
    rw [if_neg (by decide), if_pos (by decide)]
  · intro st c h hc
    subst hc
    unfold jsStep
    rw [h]
    rw [if_neg (by decide), if_neg (by decide), if_pos (by decide)]
  · intro st c h hd hsq hb hob hcb
    unfold jsStep
    rw [h]
    rw [if_neg (by simp [hd, hsq, hb]), if_neg (by simp [hob]), if_neg (by simp [hcb])]
    exact ⟨rfl, h⟩

/-- C5 witness: the in-string part of the amended theorem applied to a
concrete scanner state (inside a double-quoted string, depth 1) fed the
`{` character. -/
theorem C5_amended_witness :
    (jsStep ⟨1, some dquote, false, true⟩ obrace).openBraces =
      (⟨1, some dquote, false, true⟩ : ScanSt).openBraces ∧
    (jsStep ⟨1, some dquote, false, true⟩ obrace).firstBraceFound =
      (⟨1, some dquote, false, true⟩ : ScanSt).firstBraceFound :=
  C5_amended_scan_state.1 ⟨1, some dquote, false, true⟩ obrace dquote rfl

/-- C9: block extraction is a total function (the embedding has no error
outcome), and whenever the scan finds no closing brace — either no `{`
exists at or after the match, or the depth never returns to zero before
end-of-file (unterminated strings included) — `endLine` is the file's
last line and `blockCode` is a suffix of the file's lines running to
end-of-file, rather than an error. -/
theorem C9_no_close_fallback (content : List Char) (startPos : Nat)
    (lines : List (List Char))
    (h : braceFrom content startPos = none ∨
         ∃ i0, braceFrom content startPos = some i0 ∧
           jsScanLoop initSt i0 (content.drop i0) = none) :
    (findJSBlockEnd content startPos lines).endLine = lines.length ∧
    ∃ b, (findJSBlockEnd content startPos lines).blockCode =
      joinNL (lines.drop b) := by
  rcases h with h | ⟨i0, h1, h2⟩
  · rw [findJSBlockEnd_nobrace content startPos lines h]
    exact ⟨rfl, _, rfl⟩
  · rw [findJSBlockEnd_noclose content startPos lines i0 h1 h2]
    exact ⟨rfl, _, rfl⟩

/-- C9 witness: the fallback theorem applied to the bodyless one-liner
`const simple = () => true;`, which contains no `{` at all. -/
theorem C9_witness :
    (findJSBlockEnd exC9content 0 (splitNL exC9content)).endLine =
      (splitNL exC9content).length ∧
    ∃ b, (findJSBlockEnd exC9content 0 (splitNL exC9content)).blockCode =
      joinNL ((splitNL exC9content).drop b) :=
  C9_no_close_fallback exC9content 0 (splitNL exC9content) (Or.inl (by decide))

/-- C8: if every supported file before `f` reads successfully and `f` is a
supported file whose read fails with `e`, `parseDirectory` aborts the
whole call with the single wrapping error naming `f`'s path and the
underlying cause; the `Except.error` result carries no chunks, so no
partial results from other files are returned. -/
theorem C8_read_failure_aborts (pre : List FsFile) (f : FsFile)
    (post : List FsFile) (lang : Language) (e : String)
    (hpre : ∀ g ∈ pre, ∀ l, SUPPORTED_EXTENSIONS (extname g.path) = some l →
      ∃ s, g.read = Except.ok s)
    (hf : SUPPORTED_EXTENSIONS (extname f.path) = some lang)
    (he : f.read = Except.error e) :
    parseDirectory (pre ++ f :: post) =
      Except.error ("Failed to read or parse file " ++ f.path ++ ": " ++ e) := by
  induction pre with
  | nil =>
    rw [List.nil_append]
    unfold parseDirectory
    rw [hf, he]
  | cons g rest ih =>
    have hpre' : ∀ x ∈ rest, ∀ l, SUPPORTED_EXTENSIONS (extname x.path) = some l →
        ∃ s, x.read = Except.ok s :=
      fun x hx => hpre x (List.mem_cons_of_mem g hx)
    rw [List.cons_append]
    unfold parseDirectory
    cases hge : SUPPORTED_EXTENSIONS (extname g.path) with
    | none => exact ih hpre'
    | some lg =>
      obtain ⟨s, hs⟩ := hpre g (List.mem_cons_self g rest) lg hge
      rw [hs, ih hpre']

/-- C8 witness: a failing read of `b.py` aborts the call even though a
perfectly readable `c.py` follows it. -/
theorem C8_witness :
    parseDirectory [⟨"b.py", Except.error "EACCES"⟩, ⟨"c.py", Except.ok "pass"⟩] =
      Except.error ("Failed to read or parse file " ++ "b.py" ++ ": " ++ "EACCES") :=
  C8_read_failure_aborts [] ⟨"b.py", Except.error "EACCES"⟩
    [⟨"c.py", Except.ok "pass"⟩] Language.python "EACCES"
    (fun g hg => absurd hg (List.not_mem_nil g))
    (by decide) rfl

/-- Every Python chunk carries the path it was parsed from and the
`python` language tag. -/
theorem parsePython_path_lang (content path : String) (c : CodeChunk)
    (hc : c ∈ parsePython content path) :
    c.filePath = path ∧ c.language = Language.python := by
  obtain ⟨⟨i, m⟩, hmem, rfl⟩ := List.mem_map.mp hc
  exact ⟨rfl, rfl⟩

/-- Every JS/TS chunk carries the path and the language tag it was parsed
with. -/
theorem parseJS_path_lang (content path : String) (lang : Language) (c : CodeChunk)
    (hc : c ∈ parseJS content path lang) :
    c.filePath = path ∧ c.language = lang := by
  obtain ⟨⟨i, m⟩, hmem, rfl⟩ := List.mem_map.mp hc
  exact ⟨rfl, rfl⟩

/-- C7: every chunk of a successful `parseDirectory` call comes from an
enumerated file whose extension maps, by exact lookup in the fixed
`SUPPORTED_EXTENSIONS` table applied to `extname`, to precisely the
chunk's `language` tag; and a directory whose files all have unsupported
extensions yields `Except.ok []` — no chunks and no error. -/
theorem C7_language_from_extension :
    (∀ (files : List FsFile) (cs : List CodeChunk) (c : CodeChunk),
      parseDirectory files = Except.ok cs → c ∈ cs →
      ∃ f, f ∈ files ∧ c.filePath = f.path ∧
        SUPPORTED_EXTENSIONS (extname f.path) = some c.language) ∧
    (∀ files : List FsFile,
      (∀ f ∈ files, SUPPORTED_EXTENSIONS (extname f.path) = none) →
      parseDirectory files = Except.ok []) := by
  constructor
  · intro files
    induction files with
    | nil =>
      intro cs c h hc
      obtain rfl : ([] : List CodeChunk) = cs := by simpa [parseDirectory] using h
      exact absurd hc (List.not_mem_nil c)
    | cons f rest ih =>
      intro cs c h hc
      unfold parseDirectory at h
      cases hext : SUPPORTED_EXTENSIONS (extname f.path) with
      | none =>
        rw [hext] at h
        obtain ⟨g, hg, h2, h3⟩ := ih cs c h hc
        exact ⟨g, List.mem_cons_of_mem f hg, h2, h3⟩
      | some lang =>
        rw [hext] at h
        cases hread : f.read with
        | error e =>
          rw [hread] at h
          exact absurd h (by simp)
        | ok content =>
          rw [hread] at h
          cases hrec : parseDirectory rest with
          | error e =>
            rw [hrec] at h
            exact absurd h (by simp)
          | ok cs' =>
            rw [hrec] at h
            obtain rfl : (if lang = Language.python then parsePython content f.path
                else parseJS content f.path lang) ++ cs' = cs := by simpa using h
            rcases List.mem_append.mp hc with hc1 | hc2
            · by_cases hpy : lang = Language.python
              · rw [if_pos hpy] at hc1
                obtain ⟨h2, h3⟩ := parsePython_path_lang content f.path c hc1
                refine ⟨f, List.mem_cons_self f rest, h2, ?_⟩
                rw [hext, h3, hpy]
              · rw [if_neg hpy] at hc1
                obtain ⟨h2, h3⟩ := parseJS_path_lang content f.path lang c hc1
                refine ⟨f, List.mem_cons_self f rest, h2, ?_⟩
                rw [hext, h3]
            · obtain ⟨g, hg, h2, h3⟩ := ih cs' c hrec hc2
              exact ⟨g, List.mem_cons_of_mem f hg, h2, h3⟩
  · intro files
    induction files with
    | nil => intro _; rfl
    | cons f rest ih =>
      intro h
      unfold parseDirectory
      rw [h f (List.mem_cons_self f rest)]
      exact ih (fun x hx => h x (List.mem_cons_of_mem f hx))

/-- C7 witness: the theorem applied to a listing with one `.py` file and
unsupported `.txt`/`.json` files. -/
theorem C7_witness :
    (∃ f, f ∈ exC7files ∧ exC7chunk.filePath = f.path ∧
      SUPPORTED_EXTENSIONS (extname f.path) = some exC7chunk.language) ∧
    parseDirectory [⟨"readme.txt", Except.ok "hi"⟩, ⟨"config.json", Except.ok "x"⟩] =
      Except.ok [] :=
  ⟨C7_language_from_extension.1 exC7files
      (parsePython "def f():\n    pass" "d/a.py") exC7chunk rfl (by decide),
   C7_language_from_extension.2 _ (by
    intro f hf
    rcases List.mem_cons.mp hf with rfl | hf2
    · decide
    · rcases List.mem_cons.mp hf2 with rfl | hf3
      · decide
      · exact absurd hf3 (List.not_mem_nil f))⟩

/-- Any successful identifier capture consists of a leading character
satisfying the first-character class followed by characters of the rest
class — in particular, it is nonempty. -/
theorem takeIdent_spec (first rest : Char → Bool) (s nm r : List Char)
    (h : takeIdent first rest s = some (nm, r)) :
    ∃ c cs, nm = c :: cs ∧ first c = true ∧ ∀ ch ∈ cs, rest ch = true := by
  cases s with
  | nil => simp [takeIdent] at h
  | cons c cs =>
    simp only [takeIdent] at h
    by_cases hc : first c = true
    · rw [if_pos hc] at h
      simp only [Option.some.injEq, Prod.mk.injEq] at h
      obtain ⟨h1, h2⟩ := h
      exact ⟨c, cs.takeWhile rest, h1.symm, hc,
        fun ch hch => List.mem_takeWhile_imp hch⟩
    · rw [if_neg hc] at h
      cases h

/-- The name captured by a Python match is a nonempty identifier:
`[a-zA-Z_]` then `[a-zA-Z0-9_]*`. -/
theorem matchPyAt_name (s : List Char) (m : PyM) (h : matchPyAt s = some m) :
    ∃ c cs, m.name = c :: cs ∧ isPyStartChar c = true ∧
      ∀ ch ∈ cs, isWordChar ch = true := by
  unfold matchPyAt at h
  split at h
  · cases h
  · split at h
    · cases h
    · split at h
      · cases h
      · rename_i hti
        obtain rfl := Option.some.inj h
        exact takeIdent_spec _ _ _ _ _ hti

/-- The name captured after a `function`/`class` keyword is a nonempty
`[a-zA-Z0-9_]+` word. -/
theorem jsKwTail_name (kwText s kw nm r : List Char)
    (h : jsKwTail kwText s = some (kw, nm, r)) :
    ∃ c cs, nm = c :: cs ∧ isWordChar c = true ∧
      ∀ ch ∈ cs, isWordChar ch = true := by
  unfold jsKwTail at h
  split at h
  · cases h
  · split at h
    · cases h
    · rename_i hti
      simp only [Option.some.injEq, Prod.mk.injEq] at h
      obtain ⟨h1, h2, h3⟩ := h
      subst h2
      exact takeIdent_spec _ _ _ _ _ hti

/-- Name capture through the keyword alternatives. -/
theorem jsKeywordPart_name (s : List Char) (kw nm r : List Char)
    (h : jsKeywordPart s = some (kw, nm, r)) :
    ∃ c cs, nm = c :: cs ∧ isWordChar c = true ∧
      ∀ ch ∈ cs, isWordChar ch = true := by
  unfold jsKeywordPart at h
  split at h
  · split at h
    · split at h
      · rename_i heq
        obtain rfl := Option.some.inj h
        exact jsKwTail_name _ _ _ _ _ heq
      · exact jsKwTail_name _ _ _ _ _ h
    · exact jsKwTail_name _ _ _ _ _ h
  · split at h
    · exact jsKwTail_name _ _ _ _ _ h
    · cases h

/-- Name capture through the optional `async` prefix. -/
theorem jsAsyncPart_name (s : List Char) (kw nm r : List Char)
    (h : jsAsyncPart s = some (kw, nm, r)) :
    ∃ c cs, nm = c :: cs ∧ isWordChar c = true ∧
      ∀ ch ∈ cs, isWordChar ch = true := by
  unfold jsAsyncPart at h
  split at h
  · rename_i heq
    obtain rfl := Option.some.inj h
    simp only [Option.pure_def, Option.bind_eq_bind, Option.bind_eq_some] at heq
    obtain ⟨s1, h1, heq⟩ := heq
    obtain ⟨⟨w, s2⟩, h2, heq⟩ := heq
    exact jsKeywordPart_name _ _ _ _ heq
  · exact jsKeywordPart_name _ _ _ _ h

/-- Name capture through the optional `export` prefix. -/
theorem jsExportPart_name (s : List Char) (kw nm r : List Char)
    (h : jsExportPart s = some (kw, nm, r)) :
    ∃ c cs, nm = c :: cs ∧ isWordChar c = true ∧
      ∀ ch ∈ cs, isWordChar ch = true := by
  unfold jsExportPart at h
  split at h
  · rename_i heq
    obtain rfl := Option.some.inj h
    simp only [Option.pure_def, Option.bind_eq_bind, Option.bind_eq_some] at heq
    obtain ⟨s1, h1, heq⟩ := heq
    obtain ⟨⟨w, s2⟩, h2, heq⟩ := heq
    exact jsAsyncPart_name _ _ _ _ heq
  · exact jsAsyncPart_name _ _ _ _ h

/-- Name capture through the optional JSDoc prefix group. -/
theorem jsDocClose_name (L : List Char) : ∀ (kw nm r : List Char),
    jsDocClose L = some (kw, nm, r) →
    ∃ c cs, nm = c :: cs ∧ isWordChar c = true ∧
      ∀ ch ∈ cs, isWordChar ch = true := by
  induction L with
  | nil =>
    intro kw nm r h
    cases h
  | cons c rest ih =>
    intro kw nm r h
    unfold jsDocClose at h
    split at h
    · rename_i heq
      cases heq
    · rename_i rest' heq
      injection heq with hc hr
      subst hr
      split at h
      · split at h
        · rename_i heq2
          obtain rfl := Option.some.inj h
          exact jsExportPart_name _ _ _ _ heq2
        · exact ih _ _ _ h
      · exact ih _ _ _ h
    · rename_i hd rest' hne heq
      injection heq with hc hr
      subst hr
      exact ih _ _ _ h

/-- Name capture through the whole first alternative. -/
theorem jsAlt1_name (s : List Char) (kw nm r : List Char)
    (h : jsAlt1 s = some (kw, nm, r)) :
    ∃ c cs, nm = c :: cs ∧ isWordChar c = true ∧
      ∀ ch ∈ cs, isWordChar ch = true := by
  unfold jsAlt1 at h
  split at h
  · split at h
    · rename_i heq
      obtain rfl := Option.some.inj h
      exact jsDocClose_name _ _ _ _ heq
    · exact jsExportPart_name _ _ _ _ h
  · exact jsExportPart_name _ _ _ _ h

/-- The name captured by the arrow-function alternative is a nonempty
`[a-zA-Z0-9_]+` word. -/
theorem jsAlt2Decl_name (s : List Char) (nm r : List Char)
    (h : jsAlt2Decl s = some (nm, r)) :
    ∃ c cs, nm = c :: cs ∧ isWordChar c = true ∧
      ∀ ch ∈ cs, isWordChar ch = true := by
  unfold jsAlt2Decl at h
  iterate 20 (all_goals (try simp only [] at h); all_goals (try split at h))
  all_goals try exact Option.noConfusion h
  all_goals
    simp only [Option.some.injEq, Prod.mk.injEq] at h
    obtain ⟨h1, h2⟩ := h
    subst h1
    exact takeIdent_spec _ _ _ _ _ (by assumption)

/-- Name capture through alternative 2 with its `export` prefix. -/
theorem jsAlt2_name (s : List Char) (nm r : List Char)
    (h : jsAlt2 s = some (nm, r)) :
    ∃ c cs, nm = c :: cs ∧ isWordChar c = true ∧
      ∀ ch ∈ cs, isWordChar ch = true := by
  unfold jsAlt2 at h
  split at h
  · rename_i heq
    obtain rfl := Option.some.inj h
    simp only [Option.pure_def, Option.bind_eq_bind, Option.bind_eq_some] at heq
    obtain ⟨s1, h1, heq⟩ := heq
    obtain ⟨⟨w, s2⟩, h2, heq⟩ := heq
    exact jsAlt2Decl_name _ _ _ heq
  · exact jsAlt2Decl_name _ _ _ h

/-- The name captured by any JS/TS match is a nonempty word. -/
theorem matchJSAt_name (s : List Char) (m : JSM) (h : matchJSAt s = some m) :
    ∃ c cs, m.name = c :: cs ∧ isWordChar c = true ∧
      ∀ ch ∈ cs, isWordChar ch = true := by
  unfold matchJSAt at h
  split at h
  · rename_i kw nm r heq
    obtain rfl := Option.some.inj h
    exact jsAlt1_name _ _ _ _ heq
  · split at h
    · rename_i nm r heq
      obtain rfl := Option.some.inj h
      exact jsAlt2_name _ _ _ heq
    · cases h

/-- Every match emitted by the Python exec loop comes from a successful
`matchPyAt`. -/
theorem pyScanAux_mem (L : List Char) : ∀ (next i : Nat) (b : Bool) (p : Nat × PyM),
    p ∈ pyScanAux next i b L → ∃ s, matchPyAt s = some p.2 := by
  induction L with
  | nil =>
    intro next i b p hp
    cases hp
  | cons c rest ih =>
    intro next i b p hp
    unfold pyScanAux at hp
    split at hp
    · split at hp
      · rename_i heq
        rcases List.mem_cons.mp hp with rfl | hp2
        · exact ⟨c :: rest, heq⟩
        · exact ih _ _ _ _ hp2
      · exact ih _ _ _ _ hp
    · exact ih _ _ _ _ hp

/-- Every match emitted by the JS/TS exec loop comes from a successful
`matchJSAt`. -/
theorem jsScanAux_mem (L : List Char) : ∀ (next i : Nat) (p : Nat × JSM),
    p ∈ jsScanAux next i L → ∃ s, matchJSAt s = some p.2 := by
  induction L with
  | nil =>
    intro next i p hp
    cases hp
  | cons c rest ih =>
    intro next i p hp
    unfold jsScanAux at hp
    split at hp
    · split at hp
      · rename_i heq
        rcases List.mem_cons.mp hp with rfl | hp2
        · exact ⟨c :: rest, heq⟩
        · exact ih _ _ _ hp2
      · exact ih _ _ _ hp
    · exact ih _ _ _ hp

/-- C10: every chunk's `name` is a nonempty identifier captured from the
declaration itself (for Python, `[a-zA-Z_][a-zA-Z0-9_]*`; for JS/TS,
`[a-zA-Z0-9_]+`).  Since the captured name is never empty, the
`|| 'unknown'` fallback branch in both chunk constructors is never taken:
the emitted name is always the captured identifier text. -/
theorem C10_name_nonempty :
    (∀ (content path : String) (c : CodeChunk), c ∈ parsePython content path →
      c.name ≠ "" ∧ ∃ h t, c.name.data = h :: t ∧ isPyStartChar h = true ∧
        ∀ ch ∈ t, isWordChar ch = true) ∧
    (∀ (content path : String) (lang : Language) (c : CodeChunk),
      c ∈ parseJS content path lang →
      c.name ≠ "" ∧ ∃ h t, c.name.data = h :: t ∧ isWordChar h = true ∧
        ∀ ch ∈ t, isWordChar ch = true) := by
  constructor
  · intro content path c hc
    obtain ⟨⟨i, m⟩, hmem, rfl⟩ := List.mem_map.mp hc
    obtain ⟨s, hs⟩ := pyScanAux_mem _ _ _ _ _ hmem
    obtain ⟨ch, cs, hname, hstart, htail⟩ := matchPyAt_name s m hs
    have hne : m.name.isEmpty = false := by rw [hname]; rfl
    have hval : (pyChunkOf content.data (splitNL content.data) path (i, m)).name =
        ⟨m.name⟩ := by
      show (if m.name.isEmpty then ("unknown" : String) else ⟨m.name⟩) = ⟨m.name⟩
      rw [hne]
      rfl
    rw [hval]
    refine ⟨?_, ch, cs, hname, hstart, htail⟩
    intro heq
    have hd := congrArg String.data heq
    rw [show (String.mk m.name).data = m.name from rfl, hname] at hd
    cases hd
  · intro content path lang c hc
    obtain ⟨⟨i, m⟩, hmem, rfl⟩ := List.mem_map.mp hc
    obtain ⟨s, hs⟩ := jsScanAux_mem _ _ _ _ hmem
    obtain ⟨ch, cs, hname, hstart, htail⟩ := matchJSAt_name s m hs
    have hne : m.name.isEmpty = false := by rw [hname]; rfl
    have hval : (jsChunkOf content.data (splitNL content.data) path lang (i, m)).name =
        ⟨m.name⟩ := by
      show (if m.name.isEmpty then ("unknown" : String) else ⟨m.name⟩) = ⟨m.name⟩
      rw [hne]
      rfl
    rw [hval]
    refine ⟨?_, ch, cs, hname, hstart, htail⟩
    intro heq
    have hd := congrArg String.data heq
    rw [show (String.mk m.name).data = m.name from rfl, hname] at hd
    cases hd

/-- C10 witness: the theorem applied to the chunk extracted from a
one-function Python file. -/
theorem C10_witness :
    exC7chunk.name ≠ "" ∧ ∃ h t, exC7chunk.name.data = h :: t ∧
      isPyStartChar h = true ∧ ∀ ch ∈ t, isWordChar ch = true :=
  C10_name_nonempty.1 "def f():\n    pass" "d/a.py" exC7chunk (by decide)

end Cortex
